import Mathlib

/-!
Verification of the Cordelia chord- and key-identification engine.

This file gives a shallow embedding, in Lean 4, of the pure engine of the
Go program (main.go): the pitch model, the chord dictionary, subset
matching, chord-name parsing, note generation and key estimation.

Modelling conventions:
- Go strings are modelled as Lean strings viewed as character sequences;
  all tokens of interest are ASCII, where Go byte slicing and rune
  handling agree with character operations.
- Go int is modelled as Int; Go integer remainder is truncated division
  remainder, Int.tmod.
- Go map lookups over fixed tables are modelled by association-list
  lookups (the tables have pairwise-distinct keys).
- A Go slice-index expression that can panic is modelled by an
  Option-valued function: none models the panic.
- Go sort.Slice is an unstable comparison sort; on every list produced
  by the engine the comparator is a total preorder that is antisymmetric
  (key names are pairwise distinct), so its result is the unique sorted
  permutation; we model it by insertion sort with the reflexive closure
  of the Go less-comparator.
-/

namespace Cordelia

/-- Embeds the Go struct Note: the original input spelling and the
pitch-class value. -/
structure Note where
  Original : String
  Value : Int
deriving DecidableEq

/-- Embeds the Go table noteMap: name to pitch class, 21 entries. -/
def noteMap : List (String × Int) :=
  [("C", 0), ("B#", 0), ("C#", 1), ("DB", 1), ("D", 2), ("D#", 3), ("EB", 3),
   ("E", 4), ("FB", 4), ("F", 5), ("E#", 5), ("F#", 6), ("GB", 6), ("G", 7),
   ("G#", 8), ("AB", 8), ("A", 9), ("A#", 10), ("BB", 10), ("B", 11), ("CB", 11)]

/-- Embeds the Go table valueToName: canonical sharp-preferring spelling
for each pitch class 0..11. -/
def valueToName : List String :=
  ["C", "C#", "D", "D#", "E", "F"] ++ ["F#", "G", "G#", "A", "A#", "B"]

/-- Association-list lookup, modelling a Go map read on a table with
distinct keys. -/
def lookupTable (key : String) : List (String × Int) → Option Int
  | [] => none
  | (k, v) :: rest => if key = k then some v else lookupTable key rest

/-- Embeds strings.Replace(s, "b", "B", 1) from ParseNote: replace the
first lowercase b character (a no-op after upcasing, kept for fidelity). -/
def replaceFirstFlat : List Char → List Char
  | [] => []
  | c :: rest => if c = 'b' then 'B' :: rest else c :: replaceFirstFlat rest

/-- Embeds the normalization inside Go ParseNote: title-case the first
rune, upper-case the rest, then the (vacuous) flat replacement. -/
def NormalizeNote (s : String) : String :=
  match s.data with
  | [] => ""
  | c :: rest => String.mk (replaceFirstFlat (c.toUpper :: rest.map Char.toUpper))

/-- Embeds Go ParseNote: empty string fails, otherwise normalize and look
up in noteMap; on success the pre-normalization string is kept as
Original. -/
def ParseNote (s : String) : Option Note :=
  if s = "" then none
  else
    match lookupTable (NormalizeNote s) noteMap with
    | some value => some { Original := s, Value := value }
    | none => none

/-- Embeds the loop of Go Unique with its seen-set accumulator (the Go
map of seen values is modelled as a list of values). -/
def UniqueAux (seen : List Int) : List Note → List Note
  | [] => []
  | n :: rest =>
    if n.Value ∈ seen then UniqueAux seen rest
    else n :: UniqueAux (n.Value :: seen) rest

/-- Embeds Go Unique: keep the first note of each pitch class, in order. -/
def Unique (notes : List Note) : List Note :=
  UniqueAux [] notes

/-- The deduplication operation as the specification describes it: keep
each first occurrence, removing every later note of the same pitch class.
Used to compare Unique against the spec wording. -/
def dedupeSpec : List Note → List Note
  | [] => []
  | n :: rest => n :: dedupeSpec (rest.filter fun m => m.Value != n.Value)
termination_by l => l.length
decreasing_by
  simp only [List.length_cons]
  exact Nat.lt_succ_of_le (List.length_filter_le _ _)

/-- Embeds Go SliceToString: render each note by its Original spelling,
or the canonical name of its value when Original is empty; none models
the panic of an out-of-range index. -/
def NoteStrings : List Note → Option (List String)
  | [] => some []
  | n :: rest =>
    let part :=
      if n.Original = "" then
        if 0 ≤ n.Value then valueToName.get? n.Value.toNat else none
      else some n.Original
    match part, NoteStrings rest with
    | some p, some ps => some (p :: ps)
    | _, _ => none

/-- Embeds Go SliceToString (join with single spaces); none models a
panic on an out-of-range pitch value. -/
def SliceToString (notes : List Note) : Option String :=
  (NoteStrings notes).map (String.intercalate " ")

/-- Embeds the Go struct Chord: display name, parse suffixes, interval
formula. -/
structure Chord where
  Name : String
  Suffixes : List String
  Intervals : List Int
deriving DecidableEq

/-- Embeds the Go struct Match. -/
structure Match where
  Name : String
  Intervals : List Int
deriving DecidableEq

/-- Embeds the Go chordDictionary table, in source order. -/
def chordDictionary : List Chord :=
  [{ Name := "Major 7th", Suffixes := ["maj7", "M7"], Intervals := [0, 4, 7, 11] },
   { Name := "Minor-Major 7th", Suffixes := ["m(maj7)"], Intervals := [0, 3, 7, 11] },
   { Name := "Minor 7th", Suffixes := ["m7", "min7"], Intervals := [0, 3, 7, 10] },
   { Name := "Dominant 7th", Suffixes := ["7", "dom7"], Intervals := [0, 4, 7, 10] },
   { Name := "Major Triad", Suffixes := ["", "M"], Intervals := [0, 4, 7] },
   { Name := "Minor Triad", Suffixes := ["m", "min"], Intervals := [0, 3, 7] },
   { Name := "Diminished Triad", Suffixes := ["dim"], Intervals := [0, 3, 6] },
   { Name := "Augmented Triad", Suffixes := ["aug", "+"], Intervals := [0, 4, 8] },
   { Name := "Sus2", Suffixes := ["sus2"], Intervals := [0, 2, 7] },
   { Name := "Sus4", Suffixes := ["sus4"], Intervals := [0, 5, 7] }]

/-- Embeds the Go method Chord.Check: a length fast-fail, then membership
of every required interval (the Go set built from inputIntervals has the
same membership as the list itself). -/
def Chord.Check (c : Chord) (inputIntervals : List Int) : Bool :=
  if inputIntervals.length < c.Intervals.length then false
  else c.Intervals.all fun requiredInterval => inputIntervals.contains requiredInterval

/-- Embeds Go FindMatches: collect, in dictionary order, each definition
whose Check passes. -/
def FindMatches (intervals : List Int) : List Match :=
  chordDictionary.filterMap fun chordDef =>
    if chordDef.Check intervals then
      some { Name := chordDef.Name, Intervals := chordDef.Intervals }
    else none

/-- Errors of Go ParseChordName: an unparsable root prefix, or a quality
suffix unknown to the dictionary (carrying that suffix). -/
inductive ChordNameError where
  | invalidRoot : ChordNameError
  | unknownQuality : String → ChordNameError
deriving DecidableEq

/-- Embeds the dictionary scan at the end of Go ParseChordName: the first
entry, in dictionary order, one of whose suffixes equals the quality. -/
def FindBySuffix (quality : String) : List Chord → Option Chord
  | [] => none
  | c :: rest => if c.Suffixes.contains quality then some c else FindBySuffix quality rest

/-- The suffix resolution step of Go ParseChordName: scan the dictionary,
or fail naming the unknown quality. -/
def ResolveQuality (rootNote : Note) (quality : String) :
    Except ChordNameError (Note × Chord) :=
  match FindBySuffix quality chordDictionary with
  | some chordDef => Except.ok (rootNote, chordDef)
  | none => Except.error (ChordNameError.unknownQuality quality)

/-- Embeds Go ParseChordName: for tokens longer than one character try a
two-character root strictly before a one-character root; the rest of the
token is the quality suffix resolved against the dictionary. -/
def ParseChordName (name : String) : Except ChordNameError (Note × Chord) :=
  if 1 < name.length then
    match ParseNote (String.mk (name.data.take 2)) with
    | some rootNote => ResolveQuality rootNote (String.mk (name.data.drop 2))
    | none =>
      match ParseNote (String.mk (name.data.take 1)) with
      | some rootNote => ResolveQuality rootNote (String.mk (name.data.drop 1))
      | none => Except.error ChordNameError.invalidRoot
  else
    match ParseNote name with
    | some rootNote => ResolveQuality rootNote ""
    | none => Except.error ChordNameError.invalidRoot

/-- Embeds Go GenerateNotes: each offset yields the pitch class
(root + offset) tmod 12, spelled by valueToName; none models the panic
of a negative or out-of-range index. -/
def GenerateNotes (root : Note) : List Int → Option (List Note)
  | [] => some []
  | interval :: rest =>
    let noteValue := Int.tmod (root.Value + interval) 12
    if 0 ≤ noteValue then
      match valueToName.get? noteValue.toNat with
      | some name =>
        (GenerateNotes root rest).map fun ns => { Original := name, Value := noteValue } :: ns
      | none => none
    else none

/-- Embeds Go CalculateIntervals: per-note difference from the root,
shifted into 0..11 when negative, then sorted ascending (sort.Ints). -/
def CalculateIntervals (root : Note) (notes : List Note) : List Int :=
  let intervals := notes.map fun n =>
    let interval := n.Value - root.Value
    if interval < 0 then interval + 12 else interval
  List.insertionSort (fun a b : Int => a ≤ b) intervals

/-- Embeds the Go struct Key: display name and scale pitch-class set
(the Go set is modelled as the list of its members). -/
structure Key where
  Name : String
  Notes : List Int
deriving DecidableEq

/-- Embeds the Go struct KeyMatch (the count is a tally from zero, hence
a Nat). -/
structure KeyMatch where
  Name : String
  MatchCount : Nat
deriving DecidableEq

/-- Embeds the noteNames table of the Go init routine. -/
def noteNames : List String :=
  ["C", "C#", "D", "D#"] ++ ["E", "F", "F#", "G"] ++ ["G#", "A", "A#", "B"]

/-- Embeds the flatNames table of the Go init routine. -/
def flatNames : List String :=
  ["C", "Db", "D", "Eb", "E", "F", "Gb", "G", "Ab", "A", "Bb", "B"]

/-- Embeds majorPattern of the Go init routine. -/
def majorPattern : List Int := [0, 2, 4, 5, 7, 9, 11]

/-- Embeds minorPattern of the Go init routine. -/
def minorPattern : List Int := [0, 2, 3, 5, 7, 8, 10]

/-- Embeds the Go init routine building keySignatures: for each root
0..11, a major key (flat-named) then a natural-minor key (sharp-named);
all operands are nonnegative so the Go remainder agrees with emod. -/
def keySignatures : List Key :=
  (List.range 12).flatMap fun i =>
    [{ Name := flatNames.getD i "" ++ " Major",
       Notes := majorPattern.map fun interval => ((i : Int) + interval) % 12 },
     { Name := noteNames.getD i "" ++ " Minor",
       Notes := minorPattern.map fun interval => ((i : Int) + interval) % 12 }]

/-- Lexicographic order on character lists, embedding the Go byte-wise
order on strings (all engine names are ASCII, where the two agree). -/
def charListLt : List Char → List Char → Bool
  | _, [] => false
  | [], _ :: _ => true
  | a :: as, b :: bs => if a < b then true else if b < a then false else charListLt as bs

/-- Embeds the sort.Slice comparator of Go Estimate: higher match count
first, ties broken by name ascending. -/
def keyMatchLess (a b : KeyMatch) : Bool :=
  if a.MatchCount = b.MatchCount then charListLt a.Name.data b.Name.data
  else decide (b.MatchCount < a.MatchCount)

/-- Ordered insertion for the model of the Go sort in Estimate. -/
def insertKeyMatch (a : KeyMatch) : List KeyMatch → List KeyMatch
  | [] => [a]
  | b :: l => if keyMatchLess b a then b :: insertKeyMatch a l else a :: b :: l

/-- Insertion sort by the Estimate comparator. Go sort.Slice is an
unspecified comparison sort, but on key-match lists with pairwise
distinct names the comparator is a strict total order, so every
comparison sort returns this same list. -/
def sortKeyMatches : List KeyMatch → List KeyMatch
  | [] => []
  | a :: l => insertKeyMatch a (sortKeyMatches l)

/-- Embeds Go Estimate: empty input yields nil; otherwise count, per key
signature, the deduplicated input pitch classes lying in the key, keep
the keys with positive count, and sort by the comparator. -/
def Estimate (notes : List Note) : List KeyMatch :=
  if notes.isEmpty then []
  else
    let found := keySignatures.filterMap fun keySig =>
      let uniqueNotes := Unique notes
      let count := uniqueNotes.countP fun n => keySig.Notes.contains n.Value
      if 0 < count then some { Name := keySig.Name, MatchCount := count } else none
    sortKeyMatches found

/-- The input notes C, D, E, F, G, A (pitch classes 0, 2, 4, 5, 7, 9) of
the key-estimation scenario. -/
def cMajorHexachord : List Note :=
  [{ Original := "C", Value := 0 }, { Original := "D", Value := 2 },
   { Original := "E", Value := 4 }, { Original := "F", Value := 5 },
   { Original := "G", Value := 7 }, { Original := "A", Value := 9 }]

end Cordelia

deriving instance DecidableEq for Except

namespace Cordelia

/-! ### Helper lemmas -/

theorem contains_iff_mem {l : List Int} {a : Int} : l.contains a = true ↔ a ∈ l := by
  simp [List.contains_iff_exists_mem_beq]

theorem check_eq_true_iff (c : Chord) (I : List Int) :
    c.Check I = true ↔ c.Intervals.length ≤ I.length ∧ ∀ r ∈ c.Intervals, r ∈ I := by
  unfold Chord.Check
  by_cases h : I.length < c.Intervals.length
  · rw [if_pos h]
    constructor
    · intro hfalse; cases hfalse
    · intro ⟨hle, _⟩; omega
  · rw [if_neg h]
    constructor
    · intro hall
      refine ⟨Nat.le_of_not_lt h, ?_⟩
      intro r hr
      have := List.all_eq_true.mp hall r hr
      exact contains_iff_mem.mp this
    · intro ⟨_, hmem⟩
      exact List.all_eq_true.mpr fun r hr => contains_iff_mem.mpr (hmem r hr)

theorem mem_findMatches_iff {I : List Int} {m : Match} :
    m ∈ FindMatches I ↔ ∃ c, c ∈ chordDictionary ∧ c.Check I = true ∧
      m = { Name := c.Name, Intervals := c.Intervals } := by
  unfold FindMatches
  rw [List.mem_filterMap]
  constructor
  · rintro ⟨c, hc, hsome⟩
    by_cases h : c.Check I = true
    · rw [if_pos h] at hsome
      exact ⟨c, hc, h, (Option.some_inj.mp hsome).symm⟩
    · rw [if_neg h] at hsome; cases hsome
  · rintro ⟨c, hc, h, rfl⟩
    exact ⟨c, hc, by rw [if_pos h]⟩

theorem mem_eq_of_pairwise_name {α : Type} {f : α → String} {l : List α}
    (hp : l.Pairwise fun x y => f x ≠ f y) :
    ∀ a, a ∈ l → ∀ b, b ∈ l → f a = f b → a = b := by
  induction l with
  | nil => intro a ha; cases ha
  | cons c t ih =>
    intro a ha b hb hf
    rcases List.pairwise_cons.mp hp with ⟨hhead, htail⟩
    rcases List.mem_cons.mp ha with rfl | ha' <;> rcases List.mem_cons.mp hb with rfl | hb'
    · rfl
    · exact absurd hf (hhead b hb')
    · exact absurd hf.symm (hhead a ha')
    · exact ih htail a ha' b hb' hf

theorem dict_names_pairwise : chordDictionary.Pairwise fun a b => a.Name ≠ b.Name := by
  decide

theorem dict_intervals_nodup : ∀ c ∈ chordDictionary, c.Intervals.Nodup := by
  decide

theorem nodup_subset_dedup_length {l₁ l₂ : List Int} (h₁ : l₁.Nodup)
    (hsub : ∀ a ∈ l₁, a ∈ l₂) : l₁.length ≤ l₂.dedup.length := by
  have h2 : l₁.toFinset ⊆ l₂.toFinset := by
    intro a ha
    rw [List.mem_toFinset] at *
    exact hsub a (by simpa using ha)
  have c1 : l₁.toFinset.card = l₁.length := List.toFinset_card_of_nodup h₁
  have c2 : l₂.toFinset.card = l₂.dedup.length := by
    rw [Finset.card_def, List.toFinset_val]
    exact Multiset.coe_card _
  calc l₁.length = l₁.toFinset.card := c1.symm
    _ ≤ l₂.toFinset.card := Finset.card_le_card h2
    _ = l₂.dedup.length := c2

/-! ### Claim C3 -/

/-- C3: for every interval list I and every dictionary chord definition
with k offsets, if I has fewer than k distinct values then findMatches I
contains no match for that definition; matching is total, so nothing but
absence results. -/
theorem findMatches_fewer_distinct_no_match :
    ∀ (I : List Int) (c : Chord), c ∈ chordDictionary →
      I.dedup.length < c.Intervals.length →
      ∀ m, m ∈ FindMatches I → m.Name ≠ c.Name := by
  intro I c hc hlen m hm heq
  rcases mem_findMatches_iff.mp hm with ⟨c', hc', hchk, rfl⟩
  have hcc : c' = c := mem_eq_of_pairwise_name dict_names_pairwise c' hc' c hc heq
  subst hcc
  rcases (check_eq_true_iff c' I).mp hchk with ⟨_, hmem⟩
  have hnd : c'.Intervals.Nodup := dict_intervals_nodup c' hc'
  have := nodup_subset_dedup_length hnd hmem
  omega

/-- Witness for C3: the four-offset Major 7th formula is not matched by
the three-value input 0,4,7, whose only match is the Major Triad. -/
theorem findMatches_fewer_distinct_no_match_witness :
    Match.Name { Name := "Major Triad", Intervals := [0, 4, 7] } ≠ "Major 7th" :=
  findMatches_fewer_distinct_no_match [0, 4, 7]
    { Name := "Major 7th", Suffixes := ["maj7", "M7"], Intervals := [0, 4, 7, 11] }
    (by decide) (by decide)
    { Name := "Major Triad", Intervals := [0, 4, 7] } (by decide)

/-! ### Claim C6 -/

/-- C6: findMatches on the interval list 0,4,7 returns exactly one
match, the Major Triad; in particular the Minor and Augmented Triads are
absent. -/
theorem findMatches_0_4_7_major_triad :
    FindMatches [0, 4, 7] = [{ Name := "Major Triad", Intervals := [0, 4, 7] }] ∧
    "Major Triad" ∈ (FindMatches [0, 4, 7]).map Match.Name ∧
    "Minor Triad" ∉ (FindMatches [0, 4, 7]).map Match.Name ∧
    "Augmented Triad" ∉ (FindMatches [0, 4, 7]).map Match.Name := by
  decide

/-! ### Claim C8 -/

/-- C8: subset matching is monotonic: a dictionary formula matched by
findMatches on I is still matched on any J containing every value of I;
extra intervals never remove a match. -/
theorem findMatches_monotone :
    ∀ (c : Chord), c ∈ chordDictionary →
    ∀ (I J : List Int),
      (∃ m, m ∈ FindMatches I ∧ m.Name = c.Name) →
      (∀ v ∈ I, v ∈ J) →
      c.Check J = true ∧
      ∃ m, m ∈ FindMatches J ∧ m.Name = c.Name ∧ m.Intervals = c.Intervals := by
  intro c hc I J hex hsub
  rcases hex with ⟨m, hm, hname⟩
  rcases mem_findMatches_iff.mp hm with ⟨c', hc', hchk, rfl⟩
  have hcc : c' = c := mem_eq_of_pairwise_name dict_names_pairwise c' hc' c hc hname
  subst hcc
  rcases (check_eq_true_iff c' I).mp hchk with ⟨_, hmemI⟩
  have hmemJ : ∀ r ∈ c'.Intervals, r ∈ J := fun r hr => hsub r (hmemI r hr)
  have hnd := dict_intervals_nodup c' hc'
  have hlen : c'.Intervals.length ≤ J.length := by
    have h1 := nodup_subset_dedup_length hnd hmemJ
    have h2 : J.dedup.length ≤ J.length := (List.dedup_sublist J).length_le
    omega
  have hchkJ : c'.Check J = true := (check_eq_true_iff c' J).mpr ⟨hlen, hmemJ⟩
  exact ⟨hchkJ, _, mem_findMatches_iff.mpr ⟨c', hc', hchkJ, rfl⟩, rfl, rfl⟩

/-- Witness for C8: the Major Triad match on 0,4,7 survives adding the
extra interval 10. -/
theorem findMatches_monotone_witness :
    Chord.Check { Name := "Major Triad", Suffixes := ["", "M"], Intervals := [0, 4, 7] }
      [0, 4, 7, 10] = true ∧
    ∃ m, m ∈ FindMatches [0, 4, 7, 10] ∧ m.Name = "Major Triad" ∧
      m.Intervals = [0, 4, 7] :=
  findMatches_monotone
    { Name := "Major Triad", Suffixes := ["", "M"], Intervals := [0, 4, 7] }
    (by decide) [0, 4, 7] [0, 4, 7, 10]
    ⟨{ Name := "Major Triad", Intervals := [0, 4, 7] }, by decide, rfl⟩
    (by decide)

/-! ### Claim C1 -/

/-- Counterexample for C1: on the notes C, D, E, F, G, A the first entry
of the Estimate ranking is named A Minor, not C Major (the A natural
minor scale contains the same six pitch classes and sorts first
alphabetically among the 6-match ties). -/
theorem estimate_hexachord_head_not_c_major :
    (Estimate cMajorHexachord).head?.map KeyMatch.Name = some "A Minor" ∧
    some ("A Minor" : String) ≠ some ("C Major" : String) := by
  decide

/-- C1 amended: on the notes C, D, E, F, G, A the ranking starts with
A Minor at 6 matches, and C Major is ranked second, also with 6 matches
(D Minor and F Major complete the 6-match tie, resolved alphabetically). -/
theorem estimate_hexachord_ranking :
    (Estimate cMajorHexachord).head? = some { Name := "A Minor", MatchCount := 6 } ∧
    (Estimate cMajorHexachord).get? 1 = some { Name := "C Major", MatchCount := 6 } ∧
    (Estimate cMajorHexachord).get? 2 = some { Name := "D Minor", MatchCount := 6 } ∧
    (Estimate cMajorHexachord).get? 3 = some { Name := "F Major", MatchCount := 6 } ∧
    { Name := "C Major", MatchCount := 6 } ∈ Estimate cMajorHexachord := by
  decide

/-! ### Claim C2 -/

/-- Counterexample for C2: a note generated by GenerateNotes carries the
canonical spelling of its pitch class as Original, not the empty
string. -/
theorem generateNotes_original_not_empty_cex :
    GenerateNotes { Original := "C", Value := 0 } [0] =
      some [{ Original := "C", Value := 0 }] ∧
    ({ Original := "C", Value := 0 } : Note).Original ≠ "" := by
  decide

/-- C2 amended: every Note returned (without a panic) by GenerateNotes
carries as Original the canonical sharp-preferring spelling of its pitch
class, taken from the valueToName table — a nonempty string, never the
empty spelling. -/
theorem generateNotes_canonical_spelling :
    ∀ (root : Note) (intervals : List Int) (ns : List Note),
      GenerateNotes root intervals = some ns →
      ∀ n, n ∈ ns →
        n.Original ≠ "" ∧ valueToName.get? n.Value.toNat = some n.Original := by
  intro root intervals
  induction intervals with
  | nil =>
    intro ns h n hn
    simp only [GenerateNotes] at h
    cases h
    cases hn
  | cons i rest ih =>
    intro ns h n hn
    simp only [GenerateNotes] at h
    by_cases h0 : 0 ≤ Int.tmod (root.Value + i) 12
    · rw [if_pos h0] at h
      cases hget : valueToName.get? (Int.tmod (root.Value + i) 12).toNat with
      | none => rw [hget] at h; cases h
      | some name =>
        rw [hget] at h
        rcases Option.map_eq_some'.mp h with ⟨ns', hns', rfl⟩
        rcases List.mem_cons.mp hn with rfl | hn'
        · refine ⟨?_, by simpa using hget⟩
          have hmem : name ∈ valueToName := List.get?_mem hget
          have hne : ∀ s ∈ valueToName, s ≠ "" := by decide
          exact hne name hmem
        · exact ih ns' hns' n hn'
    · rw [if_neg h0] at h; cases h

/-- Witness for C2 amended: generating the A-minor triad from root A,
the generated C note has the nonempty canonical spelling from
valueToName. -/
theorem generateNotes_canonical_spelling_witness :
    ({ Original := "C", Value := 0 } : Note).Original ≠ "" ∧
    valueToName.get? (({ Original := "C", Value := 0 } : Note).Value).toNat =
      some ({ Original := "C", Value := 0 } : Note).Original :=
  generateNotes_canonical_spelling { Original := "A", Value := 9 } [0, 3, 7]
    [{ Original := "A", Value := 9 }, { Original := "C", Value := 0 },
     { Original := "E", Value := 4 }]
    (by decide) { Original := "C", Value := 0 } (by decide)

/-! ### Claim C9 -/

theorem lookupTable_eq_none_iff :
    ∀ (l : List (String × Int)) (k : String),
      lookupTable k l = none ↔ k ∉ l.map Prod.fst := by
  intro l k
  induction l with
  | nil => simp [lookupTable]
  | cons p t ih =>
    obtain ⟨k', v⟩ := p
    simp only [lookupTable, List.map_cons, List.mem_cons]
    by_cases h : k = k'
    · rw [if_pos h]
      simp [h]
    · rw [if_neg h]
      simp only [ih]
      constructor
      · intro hnot hor
        rcases hor with hk | hk
        · exact h hk
        · exact hnot hk
      · intro hnot hk
        exact hnot (Or.inr hk)

theorem lookupTable_mem :
    ∀ (l : List (String × Int)) (k : String) (v : Int),
      lookupTable k l = some v → (k, v) ∈ l := by
  intro l k v
  induction l with
  | nil => intro h; cases h
  | cons p t ih =>
    obtain ⟨k', v'⟩ := p
    intro h
    simp only [lookupTable] at h
    by_cases hk : k = k'
    · rw [if_pos hk] at h
      have hv := Option.some_inj.mp h
      subst hk
      subst hv
      exact List.mem_cons_self _ _
    · rw [if_neg hk] at h
      exact List.mem_cons_of_mem _ (ih h)

/-- C9: parsePitch fails exactly when the case-normalized token is
absent from the 21-entry table; on success the pre-normalization string
is kept as Original and the value is the table entry, so C sharp and
D flat both map to pitch class 1 with distinct spellings. -/
theorem parseNote_table_spec :
    noteMap.length = 21 ∧
    (∀ s : String, ParseNote s = none ↔ NormalizeNote s ∉ noteMap.map Prod.fst) ∧
    (∀ s n, ParseNote s = some n →
      n.Original = s ∧ lookupTable (NormalizeNote s) noteMap = some n.Value) ∧
    ParseNote "C#" = some { Original := "C#", Value := 1 } ∧
    ParseNote "Db" = some { Original := "Db", Value := 1 } := by
  refine ⟨by decide, ?_, ?_, by decide, by decide⟩
  · intro s
    unfold ParseNote
    by_cases hs : s = ""
    · rw [if_pos hs]
      subst hs
      exact ⟨fun _ => by decide, fun _ => rfl⟩
    · rw [if_neg hs]
      cases h : lookupTable (NormalizeNote s) noteMap with
      | none =>
        constructor
        · intro _
          exact (lookupTable_eq_none_iff noteMap (NormalizeNote s)).mp h
        · intro _
          rfl
      | some v =>
        constructor
        · intro hc
          cases hc
        · intro hno
          have hmem : (NormalizeNote s, v) ∈ noteMap := lookupTable_mem noteMap _ v h
          exact absurd (List.mem_map_of_mem Prod.fst hmem) hno
  · intro s n h
    unfold ParseNote at h
    by_cases hs : s = ""
    · rw [if_pos hs] at h
      cases h
    · rw [if_neg hs] at h
      cases hl : lookupTable (NormalizeNote s) noteMap with
      | none => rw [hl] at h; cases h
      | some v =>
        rw [hl] at h
        have h2 := Option.some_inj.mp h
        subst h2
        exact ⟨rfl, rfl⟩

/-- Witness for C9: parsing the token C sharp keeps the original input
spelling and looks up pitch class 1 in the table. -/
theorem parseNote_table_spec_witness :
    ({ Original := "C#", Value := 1 } : Note).Original = "C#" ∧
    lookupTable (NormalizeNote "C#") noteMap =
      some ({ Original := "C#", Value := 1 } : Note).Value :=
  parseNote_table_spec.2.2.1 "C#" { Original := "C#", Value := 1 } (by decide)

/-! ### Claim C5 -/

theorem findBySuffix_eq_findP :
    ∀ (q : String) (l : List Chord),
      FindBySuffix q l = l.find? fun c => c.Suffixes.contains q := by
  intro q l
  induction l with
  | nil => rfl
  | cons c t ih =>
    unfold FindBySuffix
    cases h : c.Suffixes.contains q with
    | true =>
      rw [if_pos rfl]
      exact (List.find?_cons_of_pos t h).symm
    | false =>
      rw [if_neg (by simp), ih]
      refine (List.find?_cons_of_neg t ?_).symm
      intro hc
      rw [h] at hc
      cases hc

/-- C5: for a chord-name token of length at least two, the
two-character root is tried strictly before the one-character fallback;
if neither parses the result is the invalid-root error, and otherwise
the quality suffix selects the first dictionary entry containing it
exactly, or fails with the unknown-quality error naming the suffix. -/
theorem parseChordName_spec :
    ∀ name : String, 2 ≤ name.length →
      (∀ r, ParseNote (String.mk (name.data.take 2)) = some r →
        (∀ c, (chordDictionary.find? fun cd =>
            cd.Suffixes.contains (String.mk (name.data.drop 2))) = some c →
          ParseChordName name = Except.ok (r, c)) ∧
        ((chordDictionary.find? fun cd =>
            cd.Suffixes.contains (String.mk (name.data.drop 2))) = none →
          ParseChordName name =
            Except.error (ChordNameError.unknownQuality (String.mk (name.data.drop 2))))) ∧
      (ParseNote (String.mk (name.data.take 2)) = none →
        ∀ r, ParseNote (String.mk (name.data.take 1)) = some r →
        (∀ c, (chordDictionary.find? fun cd =>
            cd.Suffixes.contains (String.mk (name.data.drop 1))) = some c →
          ParseChordName name = Except.ok (r, c)) ∧
        ((chordDictionary.find? fun cd =>
            cd.Suffixes.contains (String.mk (name.data.drop 1))) = none →
          ParseChordName name =
            Except.error (ChordNameError.unknownQuality (String.mk (name.data.drop 1))))) ∧
      (ParseNote (String.mk (name.data.take 2)) = none →
        ParseNote (String.mk (name.data.take 1)) = none →
        ParseChordName name = Except.error ChordNameError.invalidRoot) := by
  intro name hlen
  have h1 : 1 < name.length := hlen
  refine ⟨?_, ?_, ?_⟩
  · intro r hr
    constructor
    · intro c hc
      simp only [ParseChordName, ResolveQuality, findBySuffix_eq_findP, h1, if_true, hr, hc]
    · intro hnone
      simp only [ParseChordName, ResolveQuality, findBySuffix_eq_findP, h1, if_true, hr, hnone]
  · intro h2 r hr
    constructor
    · intro c hc
      simp only [ParseChordName, ResolveQuality, findBySuffix_eq_findP, h1, if_true, h2, hr, hc]
    · intro hnone
      simp only [ParseChordName, ResolveQuality, findBySuffix_eq_findP, h1, if_true, h2, hr,
        hnone]
  · intro h2 h3
    simp only [ParseChordName, ResolveQuality, findBySuffix_eq_findP, h1, if_true, h2, h3]

/-- Witness for C5: parsing the token F sharp m 7 succeeds with the
two-character root F sharp and the Minor 7th definition. -/
theorem parseChordName_spec_witness :
    ParseChordName "F#m7" =
      Except.ok ({ Original := "F#", Value := 6 },
        { Name := "Minor 7th", Suffixes := ["m7", "min7"], Intervals := [0, 3, 7, 10] }) :=
  ((parseChordName_spec "F#m7" (by decide)).1
      { Original := "F#", Value := 6 } (by decide)).1
    { Name := "Minor 7th", Suffixes := ["m7", "min7"], Intervals := [0, 3, 7, 10] }
    (by decide)

/-! ### Claim C7 -/

theorem dedupeSpec_sublist : ∀ l : List Note, List.Sublist (dedupeSpec l) l := by
  intro l
  induction l using dedupeSpec.induct with
  | case1 => simp [dedupeSpec]
  | case2 n rest ih =>
    rw [dedupeSpec]
    exact (ih.trans (List.filter_sublist rest)).cons₂ n

theorem dedupeSpec_pairwise :
    ∀ l : List Note, (dedupeSpec l).Pairwise fun a b => a.Value ≠ b.Value := by
  intro l
  induction l using dedupeSpec.induct with
  | case1 => simp [dedupeSpec]
  | case2 n rest ih =>
    rw [dedupeSpec]
    refine List.pairwise_cons.mpr ⟨?_, ih⟩
    intro m hm
    have hmem : m ∈ rest.filter fun x => x.Value != n.Value :=
      (dedupeSpec_sublist _).subset hm
    have hne := List.of_mem_filter hmem
    intro heq
    rw [bne_iff_ne] at hne
    exact hne heq.symm

theorem dedupeSpec_complete :
    ∀ (l : List Note) (n : Note), n ∈ l →
      ∃ m, m ∈ dedupeSpec l ∧ m.Value = n.Value := by
  intro l
  induction l using dedupeSpec.induct with
  | case1 => intro n hn; cases hn
  | case2 n0 rest ih =>
    intro n hn
    rw [dedupeSpec]
    rcases List.mem_cons.mp hn with rfl | hn'
    · exact ⟨n, List.mem_cons_self _ _, rfl⟩
    · by_cases hv : n.Value = n0.Value
      · exact ⟨n0, List.mem_cons_self _ _, hv.symm⟩
      · have hf : n ∈ rest.filter fun m => m.Value != n0.Value :=
          List.mem_filter.mpr ⟨hn', bne_iff_ne.mpr hv⟩
        rcases ih n hf with ⟨m, hm, hmv⟩
        exact ⟨m, List.mem_cons_of_mem _ hm, hmv⟩

theorem dedupeSpec_idem : ∀ l : List Note, dedupeSpec (dedupeSpec l) = dedupeSpec l := by
  intro l
  induction l using dedupeSpec.induct with
  | case1 => simp [dedupeSpec]
  | case2 n rest ih =>
    rw [dedupeSpec]
    rw [dedupeSpec]
    congr 1
    have hfq : (dedupeSpec (rest.filter fun m => m.Value != n.Value)).filter
        (fun m => m.Value != n.Value) = dedupeSpec (rest.filter fun m => m.Value != n.Value) := by
      apply List.filter_eq_self.mpr
      intro m hm
      have hmem : m ∈ rest.filter (fun m => m.Value != n.Value) :=
        (dedupeSpec_sublist _).subset hm
      exact (List.mem_filter.mp hmem).2
    rw [hfq, ih]

theorem uniqueAux_eq_dedupeSpec :
    ∀ (l : List Note) (seen : List Int),
      UniqueAux seen l = dedupeSpec (l.filter fun n => !seen.contains n.Value) := by
  intro l
  induction l with
  | nil => intro seen; simp [UniqueAux, dedupeSpec]
  | cons n rest ih =>
    intro seen
    unfold UniqueAux
    by_cases h : n.Value ∈ seen
    · rw [if_pos h]
      have hb : (!seen.contains n.Value) = false := by
        rw [contains_iff_mem.mpr h]
        rfl
      rw [ih seen]
      congr 1
      rw [List.filter_cons, hb, if_neg Bool.false_ne_true]
    · rw [if_neg h]
      have hb0 : seen.contains n.Value = false := by
        cases hc : seen.contains n.Value with
        | false => rfl
        | true => exact absurd (contains_iff_mem.mp hc) h
      have hb : (!seen.contains n.Value) = true := by rw [hb0]; rfl
      rw [ih (n.Value :: seen)]
      have hcons : (n :: rest).filter (fun m => !seen.contains m.Value) =
          n :: rest.filter (fun m => !seen.contains m.Value) := by
        rw [List.filter_cons, hb, if_pos rfl]
      rw [hcons, dedupeSpec]
      congr 1
      rw [List.filter_filter]
      congr 1
      apply List.filter_congr
      intro m _
      simp only [List.contains_cons, Bool.not_or]
      cases hs : seen.contains m.Value <;> cases hv : m.Value == n.Value <;> simp [bne, hv]

/-- C7: dedupe is idempotent, agrees with the first-occurrence
deduplication described by the specification, preserves the relative
order of first occurrences (it is a sublist of the input), produces
pairwise distinct pitch classes, and retains a representative of every
input pitch class (the first occurrence, whose spelling is kept). -/
theorem unique_dedupe_spec :
    ∀ x : List Note,
      Unique (Unique x) = Unique x ∧
      Unique x = dedupeSpec x ∧
      (Unique x).Sublist x ∧
      (Unique x).Pairwise (fun a b => a.Value ≠ b.Value) ∧
      (∀ n, n ∈ x → ∃ m, m ∈ Unique x ∧ m.Value = n.Value) := by
  intro x
  have hfilter : ∀ y : List Note,
      y.filter (fun n => !([] : List Int).contains n.Value) = y := by
    intro y
    apply List.filter_eq_self.mpr
    intro m _
    rfl
  have hU : ∀ y : List Note, Unique y = dedupeSpec y := by
    intro y
    unfold Unique
    rw [uniqueAux_eq_dedupeSpec, hfilter]
  refine ⟨?_, hU x, ?_, ?_, ?_⟩
  · rw [hU x, hU (dedupeSpec x), dedupeSpec_idem]
  · rw [hU x]
    exact dedupeSpec_sublist x
  · rw [hU x]
    exact dedupeSpec_pairwise x
  · intro n hn
    rw [hU x]
    exact dedupeSpec_complete x n hn

/-- Witness for C7: in the input C then B sharp (both pitch class 0) the
deduplicated list retains a note of pitch class 0. -/
theorem unique_dedupe_spec_witness :
    ∃ m, m ∈ Unique [{ Original := "C", Value := 0 }, { Original := "B#", Value := 0 }] ∧
      m.Value = ({ Original := "B#", Value := 0 } : Note).Value :=
  (unique_dedupe_spec
      [{ Original := "C", Value := 0 }, { Original := "B#", Value := 0 }]).2.2.2.2
    { Original := "B#", Value := 0 } (by decide)

/-! ### Claim C10 -/

theorem noteMap_values_range : ∀ p ∈ noteMap, 0 ≤ p.2 ∧ p.2 < 12 := by
  decide

theorem noteStrings_isSome :
    ∀ notes : List Note, (∀ n ∈ notes, 0 ≤ n.Value ∧ n.Value < 12) →
      ∃ parts, NoteStrings notes = some parts := by
  intro notes
  induction notes with
  | nil => intro _; exact ⟨[], rfl⟩
  | cons n rest ih =>
    intro hall
    obtain ⟨parts, hparts⟩ := ih fun m hm => hall m (List.mem_cons_of_mem _ hm)
    obtain ⟨hn0, hn12⟩ := hall n (List.mem_cons_self _ _)
    by_cases ho : n.Original = ""
    · have hlen : valueToName.length = 12 := rfl
      have htn : n.Value.toNat < valueToName.length := by
        rw [hlen]
        omega
      obtain ⟨name, hget⟩ : ∃ name, valueToName.get? n.Value.toNat = some name := by
        rw [List.get?_eq_get htn]
        exact ⟨_, rfl⟩
      refine ⟨name :: parts, ?_⟩
      simp only [NoteStrings]
      rw [if_pos ho, if_pos hn0, hget, hparts]
    · refine ⟨n.Original :: parts, ?_⟩
      simp only [NoteStrings]
      rw [if_neg ho, hparts]

/-- C10: engine-produced pitch values stay in the range 0..11 — notes
from ParseNote, dictionary offsets, notes from GenerateNotes (which then
cannot panic), and intervals from CalculateIntervals — and SliceToString
never panics on notes in that range. -/
theorem engine_value_range_safety :
    (∀ s n, ParseNote s = some n → 0 ≤ n.Value ∧ n.Value < 12) ∧
    (∀ c ∈ chordDictionary, ∀ off ∈ c.Intervals, 0 ≤ off ∧ off < 12) ∧
    (∀ (root : Note) (intervals : List Int), 0 ≤ root.Value →
      (∀ i ∈ intervals, 0 ≤ i) →
      ∃ ns, GenerateNotes root intervals = some ns ∧
        ∀ n ∈ ns, 0 ≤ n.Value ∧ n.Value < 12) ∧
    (∀ (root : Note) (notes : List Note), 0 ≤ root.Value → root.Value < 12 →
      (∀ n ∈ notes, 0 ≤ n.Value ∧ n.Value < 12) →
      ∀ v ∈ CalculateIntervals root notes, 0 ≤ v ∧ v < 12) ∧
    (∀ notes : List Note, (∀ n ∈ notes, 0 ≤ n.Value ∧ n.Value < 12) →
      (SliceToString notes).isSome = true) := by
  refine ⟨?_, by decide, ?_, ?_, ?_⟩
  · intro s n h
    unfold ParseNote at h
    by_cases hs : s = ""
    · rw [if_pos hs] at h
      cases h
    · rw [if_neg hs] at h
      cases hl : lookupTable (NormalizeNote s) noteMap with
      | none => rw [hl] at h; cases h
      | some v =>
        rw [hl] at h
        have h2 := Option.some_inj.mp h
        subst h2
        exact noteMap_values_range _ (lookupTable_mem noteMap _ v hl)
  · intro root intervals hroot hints
    induction intervals with
    | nil => exact ⟨[], rfl, fun n hn => absurd hn (List.not_mem_nil n)⟩
    | cons i rest ih =>
      have hnn : 0 ≤ root.Value + i :=
        add_nonneg hroot (hints i (List.mem_cons_self _ _))
      have h0 : 0 ≤ Int.tmod (root.Value + i) 12 := Int.tmod_nonneg 12 hnn
      have hlt : Int.tmod (root.Value + i) 12 < 12 :=
        Int.tmod_lt_of_pos _ (by omega)
      have hlen : valueToName.length = 12 := rfl
      have htn : (Int.tmod (root.Value + i) 12).toNat < valueToName.length := by
        rw [hlen]
        omega
      obtain ⟨name, hget⟩ :
          ∃ name, valueToName.get? (Int.tmod (root.Value + i) 12).toNat = some name := by
        rw [List.get?_eq_get htn]
        exact ⟨_, rfl⟩
      obtain ⟨ns', hns', hrange⟩ := ih fun j hj => hints j (List.mem_cons_of_mem _ hj)
      refine ⟨{ Original := name, Value := Int.tmod (root.Value + i) 12 } :: ns', ?_, ?_⟩
      · simp only [GenerateNotes]
        rw [if_pos h0, hget, hns']
        rfl
      · intro n hn
        rcases List.mem_cons.mp hn with rfl | hn'
        · exact ⟨h0, hlt⟩
        · exact hrange n hn'
  · intro root notes hr0 hr12 hall v hv
    unfold CalculateIntervals at hv
    rw [List.mem_insertionSort] at hv
    rcases List.mem_map.mp hv with ⟨n, hn, rfl⟩
    obtain ⟨hn0, hn12⟩ := hall n hn
    dsimp only
    split_ifs with hneg
    · omega
    · omega
  · intro notes hall
    obtain ⟨parts, h⟩ := noteStrings_isSome notes hall
    unfold SliceToString
    rw [h]
    rfl

/-- Witness for C10: generating a major triad from root C yields notes
whose pitch values all lie in 0..11. -/
theorem engine_value_range_safety_witness :
    ∃ ns, GenerateNotes { Original := "C", Value := 0 } [0, 4, 7] = some ns ∧
      ∀ n ∈ ns, 0 ≤ n.Value ∧ n.Value < 12 :=
  engine_value_range_safety.2.2.1 { Original := "C", Value := 0 } [0, 4, 7]
    (by decide) (by decide)

/-! ### Claim C4 -/

theorem charListLt_irrefl : ∀ l : List Char, charListLt l l = false := by
  intro l
  induction l with
  | nil => rfl
  | cons a t ih =>
    unfold charListLt
    rw [if_neg (lt_irrefl a), if_neg (lt_irrefl a)]
    exact ih

theorem charListLt_asymm :
    ∀ a b : List Char, charListLt a b = true → charListLt b a = false := by
  intro a
  induction a with
  | nil =>
    intro b hab
    cases b with
    | nil => cases hab
    | cons bh bt => rfl
  | cons ah t ih =>
    intro b hab
    cases b with
    | nil => cases hab
    | cons bh bt =>
      unfold charListLt at hab ⊢
      rcases lt_trichotomy ah bh with h | h | h
      · rw [if_neg (lt_asymm h), if_pos h]
      · subst h
        rw [if_neg (lt_irrefl ah), if_neg (lt_irrefl ah)] at hab ⊢
        exact ih bt hab
      · rw [if_neg (lt_asymm h), if_pos h] at hab
        cases hab

theorem charListLt_trans :
    ∀ a b c : List Char, charListLt a b = true → charListLt b c = true →
      charListLt a c = true := by
  intro a
  induction a with
  | nil =>
    intro b c hab hbc
    cases b with
    | nil => cases hab
    | cons bh bt =>
      cases c with
      | nil => cases hbc
      | cons ch ct => rfl
  | cons ah t ih =>
    intro b c hab hbc
    cases b with
    | nil => cases hab
    | cons bh bt =>
      cases c with
      | nil => cases hbc
      | cons ch ct =>
        unfold charListLt at hab hbc ⊢
        rcases lt_trichotomy ah bh with h1 | h1 | h1
        · rcases lt_trichotomy bh ch with h2 | h2 | h2
          · rw [if_pos (lt_trans h1 h2)]
          · subst h2
            rw [if_pos h1]
          · rw [if_neg (lt_asymm h2), if_pos h2] at hbc
            cases hbc
        · subst h1
          rw [if_neg (lt_irrefl ah), if_neg (lt_irrefl ah)] at hab
          rcases lt_trichotomy ah ch with h2 | h2 | h2
          · rw [if_pos h2]
          · subst h2
            rw [if_neg (lt_irrefl ah), if_neg (lt_irrefl ah)] at hbc ⊢
            exact ih bt ct hab hbc
          · rw [if_neg (lt_asymm h2), if_pos h2] at hbc
            cases hbc
        · rw [if_neg (lt_asymm h1), if_pos h1] at hab
          cases hab

theorem charListLt_total :
    ∀ a b : List Char, charListLt a b = false → charListLt b a = true ∨ a = b := by
  intro a
  induction a with
  | nil =>
    intro b hab
    cases b with
    | nil => exact Or.inr rfl
    | cons bh bt => cases hab
  | cons ah t ih =>
    intro b hab
    cases b with
    | nil => exact Or.inl rfl
    | cons bh bt =>
      unfold charListLt at hab
      rcases lt_trichotomy ah bh with h | h | h
      · rw [if_pos h] at hab
        cases hab
      · subst h
        rw [if_neg (lt_irrefl ah), if_neg (lt_irrefl ah)] at hab
        rcases ih bt hab with h' | h'
        · left
          unfold charListLt
          rw [if_neg (lt_irrefl ah), if_neg (lt_irrefl ah)]
          exact h'
        · right
          rw [h']
      · left
        unfold charListLt
        rw [if_pos h]

theorem keyMatchLess_asymm :
    ∀ a b : KeyMatch, keyMatchLess a b = true → keyMatchLess b a = false := by
  intro a b h
  unfold keyMatchLess at h ⊢
  by_cases hc : a.MatchCount = b.MatchCount
  · rw [if_pos hc] at h
    rw [if_pos hc.symm]
    exact charListLt_asymm _ _ h
  · rw [if_neg hc] at h
    rw [if_neg (Ne.symm hc)]
    have hlt := of_decide_eq_true h
    exact decide_eq_false (by omega)

theorem keyMatchLess_negtrans :
    ∀ a b y : KeyMatch, keyMatchLess y a = true → keyMatchLess y b = false →
      keyMatchLess b a = true := by
  intro a b y hya hyb
  unfold keyMatchLess at hya hyb ⊢
  by_cases h1 : y.MatchCount = a.MatchCount
  · rw [if_pos h1] at hya
    by_cases h2 : y.MatchCount = b.MatchCount
    · rw [if_pos h2] at hyb
      have hb : b.MatchCount = a.MatchCount := by omega
      rw [if_pos hb]
      rcases charListLt_total _ _ hyb with h' | h'
      · exact charListLt_trans _ _ _ h' hya
      · rw [← h']
        exact hya
    · rw [if_neg h2] at hyb
      have hyb' : ¬ b.MatchCount < y.MatchCount := decide_eq_false_iff_not.mp hyb
      have hba : ¬ b.MatchCount = a.MatchCount := by omega
      rw [if_neg hba]
      exact decide_eq_true (by omega)
  · rw [if_neg h1] at hya
    have hya' := of_decide_eq_true hya
    by_cases h2 : y.MatchCount = b.MatchCount
    · have hba : ¬ b.MatchCount = a.MatchCount := by omega
      rw [if_neg hba]
      exact decide_eq_true (by omega)
    · rw [if_neg h2] at hyb
      have hyb' : ¬ b.MatchCount < y.MatchCount := decide_eq_false_iff_not.mp hyb
      have hba : ¬ b.MatchCount = a.MatchCount := by omega
      rw [if_neg hba]
      exact decide_eq_true (by omega)

theorem mem_insertKeyMatch :
    ∀ (a x : KeyMatch) (l : List KeyMatch),
      x ∈ insertKeyMatch a l ↔ x = a ∨ x ∈ l := by
  intro a x l
  induction l with
  | nil => simp [insertKeyMatch]
  | cons b t ih =>
    unfold insertKeyMatch
    by_cases h : keyMatchLess b a = true
    · rw [if_pos h]
      simp only [List.mem_cons, ih]
      tauto
    · rw [if_neg h]
      simp only [List.mem_cons]

theorem perm_insertKeyMatch :
    ∀ (a : KeyMatch) (l : List KeyMatch), (insertKeyMatch a l).Perm (a :: l) := by
  intro a l
  induction l with
  | nil => exact List.Perm.refl _
  | cons b t ih =>
    unfold insertKeyMatch
    by_cases h : keyMatchLess b a = true
    · rw [if_pos h]
      exact (ih.cons b).trans (List.Perm.swap a b t)
    · rw [if_neg h]

theorem perm_sortKeyMatches :
    ∀ l : List KeyMatch, (sortKeyMatches l).Perm l := by
  intro l
  induction l with
  | nil => exact List.Perm.refl _
  | cons a t ih =>
    unfold sortKeyMatches
    exact (perm_insertKeyMatch a (sortKeyMatches t)).trans (ih.cons a)

theorem pairwise_insertKeyMatch :
    ∀ (a : KeyMatch) (l : List KeyMatch),
      l.Pairwise (fun x y => keyMatchLess y x = false) →
      (insertKeyMatch a l).Pairwise (fun x y => keyMatchLess y x = false) := by
  intro a l
  induction l with
  | nil => intro _; exact List.pairwise_singleton _ _
  | cons b t ih =>
    intro hp
    rcases List.pairwise_cons.mp hp with ⟨hb, ht⟩
    unfold insertKeyMatch
    by_cases h : keyMatchLess b a = true
    · rw [if_pos h]
      refine List.pairwise_cons.mpr ⟨?_, ih ht⟩
      intro y hy
      rcases (mem_insertKeyMatch a y t).mp hy with rfl | hy'
      · exact keyMatchLess_asymm b y h
      · exact hb y hy'
    · rw [if_neg h]
      have hab : keyMatchLess b a = false := by
        cases hc : keyMatchLess b a with
        | false => rfl
        | true => exact absurd hc h
      refine List.pairwise_cons.mpr ⟨?_, hp⟩
      intro y hy
      rcases List.mem_cons.mp hy with rfl | hy'
      · exact hab
      · cases hc : keyMatchLess y a with
        | false => rfl
        | true =>
          have hba := keyMatchLess_negtrans a b y hc (hb y hy')
          rw [hba] at hab
          cases hab

theorem pairwise_sortKeyMatches :
    ∀ l : List KeyMatch,
      (sortKeyMatches l).Pairwise (fun x y => keyMatchLess y x = false) := by
  intro l
  induction l with
  | nil => exact List.Pairwise.nil
  | cons a t ih =>
    unfold sortKeyMatches
    exact pairwise_insertKeyMatch a _ ih

theorem keySignatures_names_nodup : (keySignatures.map Key.Name).Nodup := by
  decide

theorem length_filterMap_ite (p : Key → Prop) [DecidablePred p] (f : Key → KeyMatch) :
    ∀ l : List Key,
      (l.filterMap fun k => if p k then some (f k) else none).length =
        (l.filter fun k => decide (p k)).length := by
  intro l
  induction l with
  | nil => rfl
  | cons k t ih =>
    rw [List.filterMap_cons, List.filter_cons]
    by_cases h : p k
    · rw [if_pos h, decide_eq_true h, if_pos rfl]
      simp only [List.length_cons, ih]
    · rw [if_neg h, decide_eq_false h, if_neg Bool.false_ne_true]
      exact ih

theorem names_filterMap_sublist (f : Key → Option KeyMatch)
    (hf : ∀ k m, f k = some m → m.Name = k.Name) :
    ∀ l : List Key,
      List.Sublist ((l.filterMap f).map KeyMatch.Name) (l.map Key.Name) := by
  intro l
  induction l with
  | nil => simp
  | cons k t ih =>
    rw [List.filterMap_cons, List.map_cons]
    cases hfk : f k with
    | none => exact List.Sublist.cons _ ih
    | some m =>
      rw [List.map_cons, hf k m hfk]
      exact List.Sublist.cons₂ _ ih

/-- C4: Estimate deduplicates by pitch class, scores each of the 24 keys
by the count of deduplicated input pitch classes inside the key, keeps
exactly the keys with positive count (with those counts, without
truncation), and the returned list is sorted by count descending with
ties broken by name ascending. -/
theorem estimate_spec :
    ∀ notes : List Note,
      (Estimate notes).Pairwise
        (fun a b => b.MatchCount < a.MatchCount ∨
          (a.MatchCount = b.MatchCount ∧ charListLt a.Name.data b.Name.data = true)) ∧
      (∀ m : KeyMatch, m ∈ Estimate notes ↔
        ∃ k, k ∈ keySignatures ∧ m.Name = k.Name ∧
          m.MatchCount = (Unique notes).countP (fun n => k.Notes.contains n.Value) ∧
          0 < m.MatchCount) ∧
      (Estimate notes).length =
        (keySignatures.filter fun k =>
          0 < (Unique notes).countP (fun n => k.Notes.contains n.Value)).length := by
  intro notes
  by_cases hne : notes.isEmpty = true
  · have hnil : notes = [] := by
      cases notes with
      | nil => rfl
      | cons a t => cases hne
    subst hnil
    have hE0 : Estimate ([] : List Note) = [] := rfl
    refine ⟨?_, ?_, ?_⟩
    · rw [hE0]
      exact List.Pairwise.nil
    · intro m
      rw [hE0]
      simp only [List.not_mem_nil, false_iff]
      rintro ⟨k, _, _, hcnt, hpos⟩
      rw [hcnt] at hpos
      exact absurd hpos (Nat.lt_irrefl 0)
    · rw [hE0]
      decide
  · have hE : Estimate notes = sortKeyMatches (keySignatures.filterMap fun keySig =>
        if 0 < (Unique notes).countP (fun n => keySig.Notes.contains n.Value)
        then some { Name := keySig.Name,
                    MatchCount := (Unique notes).countP
                      (fun n => keySig.Notes.contains n.Value) }
        else none) := by
      unfold Estimate
      rw [if_neg hne]
    set F := fun keySig : Key =>
      if 0 < (Unique notes).countP (fun n => keySig.Notes.contains n.Value)
      then some { Name := keySig.Name,
                  MatchCount := (Unique notes).countP
                    (fun n => keySig.Notes.contains n.Value) }
      else (none : Option KeyMatch) with hF
    have hnamesF : ∀ k m, F k = some m → m.Name = k.Name := by
      intro k m hkm
      simp only [hF] at hkm
      by_cases h : 0 < (Unique notes).countP (fun n => k.Notes.contains n.Value)
      · rw [if_pos h] at hkm
        have := Option.some_inj.mp hkm
        subst this
        rfl
      · rw [if_neg h] at hkm
        cases hkm
    have hfound_names : ((keySignatures.filterMap F).map KeyMatch.Name).Nodup :=
      List.Nodup.sublist (names_filterMap_sublist F hnamesF keySignatures)
        keySignatures_names_nodup
    have hperm := perm_sortKeyMatches (keySignatures.filterMap F)
    refine ⟨?_, ?_, ?_⟩
    · rw [hE]
      have hpw := pairwise_sortKeyMatches (keySignatures.filterMap F)
      have hnames : ((sortKeyMatches (keySignatures.filterMap F)).map KeyMatch.Name).Nodup :=
        (hperm.map KeyMatch.Name).nodup_iff.mpr hfound_names
      have hpairne : (sortKeyMatches (keySignatures.filterMap F)).Pairwise
          (fun a b => a.Name ≠ b.Name) := List.pairwise_map.mp hnames
      refine (hpw.and hpairne).imp ?_
      rintro a b ⟨hle, hne'⟩
      unfold keyMatchLess at hle
      by_cases hc : b.MatchCount = a.MatchCount
      · rw [if_pos hc] at hle
        rcases charListLt_total _ _ hle with h' | h'
        · exact Or.inr ⟨hc.symm, h'⟩
        · exfalso
          apply hne'
          exact (congrArg String.mk h').symm
      · rw [if_neg hc] at hle
        have hnlt : ¬ a.MatchCount < b.MatchCount := decide_eq_false_iff_not.mp hle
        exact Or.inl (by omega)
    · intro m
      rw [hE, hperm.mem_iff, List.mem_filterMap]
      constructor
      · rintro ⟨k, hk, hsome⟩
        simp only [hF] at hsome
        by_cases h : 0 < (Unique notes).countP (fun n => k.Notes.contains n.Value)
        · rw [if_pos h] at hsome
          have := Option.some_inj.mp hsome
          subst this
          exact ⟨k, hk, rfl, rfl, h⟩
        · rw [if_neg h] at hsome
          cases hsome
      · rintro ⟨k, hk, hname, hcnt, hpos⟩
        refine ⟨k, hk, ?_⟩
        simp only [hF]
        obtain ⟨nm, mc⟩ := m
        have hname' : nm = k.Name := hname
        have hcnt' : mc = (Unique notes).countP (fun n => k.Notes.contains n.Value) := hcnt
        subst hname'
        subst hcnt'
        rw [if_pos hpos]
    · rw [hE, hperm.length_eq]
      exact length_filterMap_ite _ _ keySignatures

end Cordelia
